import Mathlib

/-!
# Structural equality engine of `thrift/lib/cpp2/fatal/debug.h`

`debug_equals(lhs, rhs, callback)` compares two same-typed Thrift values in a
DFS traversal, invoking `callback(lhs, rhs, path, message)` on every mismatch
and returning `true` iff no mismatch was reported.  The public entry point in
`debug.h` seeds the path with `"<root>"` and delegates to the recursive
`detail::debug_equals`; the recursive traversal itself lives in
`internal/debug-inl-post.h`, which is not part of this source tree, so the
traversal below is modelled from the specification.

Values of the composite type system are embedded as a deep `Value` type over
the spec's categories (scalar, record, union, sequence, set, map); the engine
is embedded twice: `visit` returns the list of mismatch reports (the sequence
of callback invocations), and `visitCB` threads an arbitrary stateful
callback exactly as the C++ engine invokes it; a theorem connects the two.
-/

/-- A value of a composite type, per the spec's data model (§3): scalars,
records (ordered named fields), tagged unions (one active variant), ordered
sequences, sets and associative maps. -/
inductive Value where
  | scalar (n : Nat)
  | record (fields : List (String × Value))
  | union (variant : String) (val : Value)
  | seq (elems : List Value)
  | sset (elems : List Value)
  | vmap (entries : List (Value × Value))

mutual

/-- Structural (boolean) equality on `Value`, the built-in equality used at
scalar leaves and for set membership and map-key lookup; `DecidableEq` cannot
be derived for this nested inductive on this toolchain, so it is defined by
hand and proven to decide propositional equality below. -/
def veq : Value → Value → Bool
  | .scalar n, .scalar m => n == m
  | .record fs, .record gs => veqFields fs gs
  | .union n v, .union m w => n == m && veq v w
  | .seq xs, .seq ys => veqList xs ys
  | .sset xs, .sset ys => veqList xs ys
  | .vmap es, .vmap fs => veqEntries es fs
  | _, _ => false

/-- Pointwise equality of record field lists. -/
def veqFields : List (String × Value) → List (String × Value) → Bool
  | [], [] => true
  | (n, v) :: fs, (m, w) :: gs => n == m && veq v w && veqFields fs gs
  | _, _ => false

/-- Pointwise equality of value lists. -/
def veqList : List Value → List Value → Bool
  | [], [] => true
  | x :: xs, y :: ys => veq x y && veqList xs ys
  | _, _ => false

/-- Pointwise equality of map entry lists. -/
def veqEntries : List (Value × Value) → List (Value × Value) → Bool
  | [], [] => true
  | (k, v) :: es, (k', w) :: fs => veq k k' && veq v w && veqEntries es fs
  | _, _ => false

end

/-- Boolean pairwise-distinctness of a value list (sets hold no duplicate
elements, maps no duplicate keys). -/
def distinctB : List Value → Bool
  | [] => true
  | x :: xs => !(xs.any (veq x)) && distinctB xs

/-- A mismatch report: the four-tuple `(lhs, rhs, path, message)` passed to the
callback on every detected mismatch (spec §3). -/
structure Report where
  lhs : Value
  rhs : Value
  path : String
  message : String

mutual

/-- Modelled from the spec: textual rendering of a value, used for the
"key's textual rendering" in map paths and for naming offending set elements
and missing map keys in messages (the concrete rendering syntax is left open
by the spec; only by-name use of the rendering matters to the engine). -/
def render : Value → String
  | .scalar n => toString n
  | .record fs => "\x7b" ++ renderFields fs ++ "\x7d"
  | .union n v => "<" ++ n ++ ": " ++ render v ++ ">"
  | .seq xs => "[" ++ renderList xs ++ "]"
  | .sset xs => "\x7b" ++ renderList xs ++ "\x7d"
  | .vmap es => "\x7b" ++ renderEntries es ++ "\x7d"

/-- Rendering of record field lists. -/
def renderFields : List (String × Value) → String
  | [] => ""
  | [(n, v)] => n ++ ": " ++ render v
  | (n, v) :: fs => n ++ ": " ++ render v ++ ", " ++ renderFields fs

/-- Rendering of value lists. -/
def renderList : List Value → String
  | [] => ""
  | [v] => render v
  | v :: vs => render v ++ ", " ++ renderList vs

/-- Rendering of map entry lists. -/
def renderEntries : List (Value × Value) → String
  | [] => ""
  | [(k, v)] => render k ++ ": " ++ render v
  | (k, v) :: es => render k ++ ": " ++ render v ++ ", " ++ renderEntries es

end

/-- First value associated with key `k` in an entry list (map lookup). -/
def lookupVal (k : Value) : List (Value × Value) → Option Value
  | [] => none
  | (k', v) :: es => if veq k' k then some v else lookupVal k es

mutual

/-- Modelled from the spec: the recursive traversal `detail::debug_equals` of
`internal/debug-inl-post.h` (declared in `internal/debug-inl-pre.h`, neither
part of this source tree), the recursive procedure `visit(path, lhsNode,
rhsNode)` of spec §4.1.  Returns the aggregate boolean together with the list
of mismatch reports in the order the callback is invoked with them.
- scalar: exact equality; on inequality one report at the current path;
- record: recurse into every field in the fixed field order, path extended by
  `.name`;
- union: active-variant mismatch is one report at the current path with no
  descent; otherwise recurse into the shared variant, path extended by name;
- sequence: length mismatch is one report at the current path with no
  element-wise comparison; otherwise recurse at every index, path extended by
  `[i]`;
- set: unordered symmetric difference, one report per missing element at the
  set's own path;
- map: per key of either side, a missing-key report at the map's path, or
  recursion into the two values with the path extended by the key's textual
  rendering;
- mismatched categories cannot arise for same-typed inputs (spec §7); such a
  contract violation is reported at the current path. -/
def visit (p : String) : Value → Value → Bool × List Report
  | .scalar n, .scalar m =>
    if n = m then (true, [])
    else (false, [⟨.scalar n, .scalar m, p, "values are not equal"⟩])
  | .record fs, .record gs => visitFields p fs gs
  | .union n v, .union m w =>
    if n = m then visit (p ++ "." ++ n) v w
    else (false, [⟨.union n v, .union m w, p,
      "variant mismatch: " ++ n ++ " vs " ++ m⟩])
  | .seq xs, .seq ys =>
    if xs.length = ys.length then visitSeq p 0 xs ys
    else (false, [⟨.seq xs, .seq ys, p,
      "size mismatch: " ++ toString xs.length ++ " vs " ++ toString ys.length⟩])
  | .sset xs, .sset ys =>
    let missR := xs.filter (fun x => !(ys.any (veq x)))
    let missL := ys.filter (fun y => !(xs.any (veq y)))
    (missR.isEmpty && missL.isEmpty,
      missR.map (fun x => ⟨.sset xs, .sset ys, p,
        "element " ++ render x ++ " missing in rhs"⟩)
      ++ missL.map (fun y => ⟨.sset xs, .sset ys, p,
        "element " ++ render y ++ " missing in lhs"⟩))
  | .vmap es, .vmap fs =>
    let first := visitMapL (.vmap es) (.vmap fs) p fs es
    let onlyR := fs.filter (fun e => (lookupVal e.1 es).isNone)
    (first.1 && onlyR.isEmpty,
      first.2 ++ onlyR.map (fun e => ⟨.vmap es, .vmap fs, p,
        "key " ++ render e.1 ++ " missing in lhs"⟩))
  | l, r => (false, [⟨l, r, p, "type mismatch"⟩])
termination_by l r => sizeOf l

/-- Record traversal: recurse into each field in the fixed field order,
conjoining results and concatenating reports. -/
def visitFields (p : String) :
    List (String × Value) → List (String × Value) → Bool × List Report
  | (n, v) :: fs, (_, w) :: gs =>
    let here := visit (p ++ "." ++ n) v w
    let rest := visitFields p fs gs
    (here.1 && rest.1, here.2 ++ rest.2)
  | _, _ => (true, [])
termination_by fs gs => sizeOf fs

/-- Sequence traversal at equal lengths: recurse at every index `i`, path
extended by `[i]`, continuing after mismatches. -/
def visitSeq (p : String) (i : Nat) : List Value → List Value → Bool × List Report
  | x :: xs, y :: ys =>
    let here := visit (p ++ "[" ++ toString i ++ "]") x y
    let rest := visitSeq p (i + 1) xs ys
    (here.1 && rest.1, here.2 ++ rest.2)
  | _, _ => (true, [])
termination_by xs ys => sizeOf xs

/-- Map traversal over the left-hand entries: a key absent from the right map
yields one missing-key report at the map's path `p`; a key present in both
maps yields recursion into the two values with the path extended by the
key's textual rendering, continuing after mismatches. -/
def visitMapL (l r : Value) (p : String) (fs : List (Value × Value)) :
    List (Value × Value) → Bool × List Report
  | [] => (true, [])
  | (k, v) :: es =>
    let rest := visitMapL l r p fs es
    match lookupVal k fs with
    | none => (false,
        ⟨l, r, p, "key " ++ render k ++ " missing in rhs"⟩ :: rest.2)
    | some w =>
      let here := visit (p ++ "[" ++ render k ++ "]") v w
      (here.1 && rest.1, here.2 ++ rest.2)
termination_by es => sizeOf es

end

/-- The public entry point `debug_equals` of `debug.h`: seeds the DFS path
with the root marker `"<root>"` and runs the traversal.  The C++ function
returns only the boolean and feeds each mismatch to the callback; here the
boolean is paired with the reports handed to the callback, in order. -/
def debug_equals (lhs rhs : Value) : Bool × List Report :=
  visit "<root>" lhs rhs

mutual

/-- The traversal again, in the C++ engine's own interaction style: a
caller-supplied callback is invoked (here: threaded as a state transformer
`cb : σ → Report → σ`) at the moment each mismatch is detected.  A theorem
below shows this equals folding the callback over `(visit p l r).2`, so the
engine's interaction with any callback is fully determined by the pure
report list. -/
def visitCB {σ : Type} (cb : σ → Report → σ) (p : String) :
    Value → Value → σ → Bool × σ
  | .scalar n, .scalar m, s =>
    if n = m then (true, s)
    else (false, cb s ⟨.scalar n, .scalar m, p, "values are not equal"⟩)
  | .record fs, .record gs, s => visitFieldsCB cb p fs gs s
  | .union n v, .union m w, s =>
    if n = m then visitCB cb (p ++ "." ++ n) v w s
    else (false, cb s ⟨.union n v, .union m w, p,
      "variant mismatch: " ++ n ++ " vs " ++ m⟩)
  | .seq xs, .seq ys, s =>
    if xs.length = ys.length then visitSeqCB cb p 0 xs ys s
    else (false, cb s ⟨.seq xs, .seq ys, p,
      "size mismatch: " ++ toString xs.length ++ " vs " ++ toString ys.length⟩)
  | .sset xs, .sset ys, s =>
    let missR := xs.filter (fun x => !(ys.any (veq x)))
    let missL := ys.filter (fun y => !(xs.any (veq y)))
    (missR.isEmpty && missL.isEmpty,
      List.foldl cb
        (List.foldl cb s (missR.map (fun x => ⟨.sset xs, .sset ys, p,
          "element " ++ render x ++ " missing in rhs"⟩)))
        (missL.map (fun y => ⟨.sset xs, .sset ys, p,
          "element " ++ render y ++ " missing in lhs"⟩)))
  | .vmap es, .vmap fs, s =>
    let first := visitMapLCB cb (.vmap es) (.vmap fs) p fs es s
    let onlyR := fs.filter (fun e => (lookupVal e.1 es).isNone)
    (first.1 && onlyR.isEmpty,
      List.foldl cb first.2 (onlyR.map (fun e => ⟨.vmap es, .vmap fs, p,
        "key " ++ render e.1 ++ " missing in lhs"⟩)))
  | l, r, s => (false, cb s ⟨l, r, p, "type mismatch"⟩)
termination_by l r s => sizeOf l

/-- Record traversal, callback style. -/
def visitFieldsCB {σ : Type} (cb : σ → Report → σ) (p : String) :
    List (String × Value) → List (String × Value) → σ → Bool × σ
  | (n, v) :: fs, (_, w) :: gs, s =>
    let here := visitCB cb (p ++ "." ++ n) v w s
    let rest := visitFieldsCB cb p fs gs here.2
    (here.1 && rest.1, rest.2)
  | _, _, s => (true, s)
termination_by fs gs s => sizeOf fs

/-- Sequence traversal, callback style. -/
def visitSeqCB {σ : Type} (cb : σ → Report → σ) (p : String) (i : Nat) :
    List Value → List Value → σ → Bool × σ
  | x :: xs, y :: ys, s =>
    let here := visitCB cb (p ++ "[" ++ toString i ++ "]") x y s
    let rest := visitSeqCB cb p (i + 1) xs ys here.2
    (here.1 && rest.1, rest.2)
  | _, _, s => (true, s)
termination_by xs ys s => sizeOf xs

/-- Map traversal over left-hand entries, callback style. -/
def visitMapLCB {σ : Type} (cb : σ → Report → σ) (l r : Value) (p : String)
    (fs : List (Value × Value)) : List (Value × Value) → σ → Bool × σ
  | [], s => (true, s)
  | (k, v) :: es, s =>
    match lookupVal k fs with
    | none =>
      let s1 := cb s ⟨l, r, p, "key " ++ render k ++ " missing in rhs"⟩
      let rest := visitMapLCB cb l r p fs es s1
      (false, rest.2)
    | some w =>
      let here := visitCB cb (p ++ "[" ++ render k ++ "]") v w s
      let rest := visitMapLCB cb l r p fs es here.2
      (here.1 && rest.1, rest.2)
termination_by es s => sizeOf es

end

/-- The C++ entry point in callback style: path seeded with `"<root>"`. -/
def debug_equalsCB {σ : Type} (cb : σ → Report → σ) (lhs rhs : Value)
    (s : σ) : Bool × σ :=
  visitCB cb "<root>" lhs rhs s

/-- A type descriptor, per the spec's data model (§3): the tagged variant over
the categories `{Scalar, Record, Union, Sequence, Set, Map}` supplied by the
external metadata facility. -/
inductive Ty where
  | scalar
  | record (fields : List (String × Ty))
  | union (variants : List (String × Ty))
  | seq (elem : Ty)
  | sset (elem : Ty)
  | vmap (key : Ty) (val : Ty)

/-- Type of the variant named `n` among a union's variants. -/
def lookupTy (n : String) : List (String × Ty) → Option Ty
  | [] => none
  | (m, t) :: ts => if m = n then some t else lookupTy n ts

mutual

/-- The invariant of spec §3: a value agrees with its type descriptor.  Records
carry exactly the declared fields in declaration order; a union's active
variant is declared; sequence/set elements have the element type; map keys and
values have the key/value types.  Sets hold no duplicate elements and maps no
duplicate keys, as the C++ container types guarantee by construction. -/
def hasType : Value → Ty → Bool
  | .scalar _, .scalar => true
  | .record fs, .record ts => fieldsHaveTypes fs ts
  | .union n v, .union vars =>
    match lookupTy n vars with
    | some t => hasType v t
    | none => false
  | .seq xs, .seq t => listHasType xs t
  | .sset xs, .sset t => listHasType xs t && distinctB xs
  | .vmap es, .vmap kt vt =>
    entriesHaveTypes es kt vt && distinctB (es.map Prod.fst)
  | _, _ => false
termination_by v t => sizeOf v

/-- Record fields against declared fields, in order. -/
def fieldsHaveTypes : List (String × Value) → List (String × Ty) → Bool
  | [], [] => true
  | (n, v) :: fs, (m, t) :: ts => n == m && hasType v t && fieldsHaveTypes fs ts
  | _, _ => false
termination_by fs ts => sizeOf fs

/-- Every element has the given type. -/
def listHasType : List Value → Ty → Bool
  | [], _ => true
  | x :: xs, t => hasType x t && listHasType xs t
termination_by xs t => sizeOf xs

/-- Every entry's key and value have the given types. -/
def entriesHaveTypes : List (Value × Value) → Ty → Ty → Bool
  | [], _, _ => true
  | (k, v) :: es, kt, vt =>
    hasType k kt && hasType v vt && entriesHaveTypes es kt vt
termination_by es kt vt => sizeOf es

end

theorem sizeOf_lt_of_mem_fields {n : String} {v : Value}
    {fs : List (String × Value)} (h : (n, v) ∈ fs) : sizeOf v < sizeOf fs := by
  have h1 := List.sizeOf_lt_of_mem h
  simp only [Prod.mk.sizeOf_spec] at h1
  omega

theorem sizeOf_lt_of_mem_list {v : Value} {xs : List Value} (h : v ∈ xs) :
    sizeOf v < sizeOf xs :=
  List.sizeOf_lt_of_mem h

theorem sizeOf_lt_of_mem_entries {k v : Value} {es : List (Value × Value)}
    (h : (k, v) ∈ es) : sizeOf k < sizeOf es ∧ sizeOf v < sizeOf es := by
  have h1 := List.sizeOf_lt_of_mem h
  simp only [Prod.mk.sizeOf_spec] at h1
  omega

/-- Structural induction principle for the nested inductive `Value`,
obtained by strong induction on `sizeOf`. -/
theorem value_induction (motive : Value → Prop)
    (hscalar : ∀ n, motive (.scalar n))
    (hrecord : ∀ fs, (∀ n v, (n, v) ∈ fs → motive v) → motive (.record fs))
    (hunion : ∀ n v, motive v → motive (.union n v))
    (hseq : ∀ xs, (∀ v ∈ xs, motive v) → motive (.seq xs))
    (hsset : ∀ xs, (∀ v ∈ xs, motive v) → motive (.sset xs))
    (hvmap : ∀ es, (∀ k v, (k, v) ∈ es → motive k ∧ motive v) → motive (.vmap es))
    (v : Value) : motive v := by
  have H : ∀ N v, sizeOf (v : Value) ≤ N → motive v := by
    intro N
    induction N with
    | zero =>
      intro v hv
      cases v <;> simp_arith at hv
    | succ N ih =>
      intro v hv
      cases v with
      | scalar n => exact hscalar n
      | record fs =>
        refine hrecord fs (fun n w hw => ih w ?_)
        have h1 := sizeOf_lt_of_mem_fields hw
        simp_arith at hv
        omega
      | union n w =>
        refine hunion n w (ih w ?_)
        simp_arith at hv
        omega
      | seq xs =>
        refine hseq xs (fun w hw => ih w ?_)
        have h1 := sizeOf_lt_of_mem_list hw
        simp_arith at hv
        omega
      | sset xs =>
        refine hsset xs (fun w hw => ih w ?_)
        have h1 := sizeOf_lt_of_mem_list hw
        simp_arith at hv
        omega
      | vmap es =>
        refine hvmap es (fun k w hw => ⟨ih k ?_, ih w ?_⟩) <;>
        · have h1 := sizeOf_lt_of_mem_entries hw
          simp_arith at hv
          omega
  exact H (sizeOf v) v (Nat.le_refl _)

theorem veqFields_iff (fs gs : List (String × Value))
    (ih : ∀ n v, (n, v) ∈ fs → ∀ w, veq v w = true ↔ v = w) :
    veqFields fs gs = true ↔ fs = gs := by
  induction fs generalizing gs with
  | nil => cases gs <;> simp [veqFields]
  | cons e fs ihf =>
    obtain ⟨n, v⟩ := e
    cases gs with
    | nil => simp [veqFields]
    | cons e' gs =>
      obtain ⟨m, w⟩ := e'
      simp only [veqFields, Bool.and_eq_true, beq_iff_eq,
        ih n v (List.mem_cons_self _ _) w,
        ihf gs (fun n v h => ih n v (List.mem_cons_of_mem _ h)),
        List.cons.injEq, Prod.mk.injEq]

theorem veqList_iff (xs ys : List Value)
    (ih : ∀ v ∈ xs, ∀ w, veq v w = true ↔ v = w) :
    veqList xs ys = true ↔ xs = ys := by
  induction xs generalizing ys with
  | nil => cases ys <;> simp [veqList]
  | cons x xs ihl =>
    cases ys with
    | nil => simp [veqList]
    | cons y ys =>
      simp only [veqList, Bool.and_eq_true,
        ih x (List.mem_cons_self _ _) y,
        ihl ys (fun v h => ih v (List.mem_cons_of_mem _ h)),
        List.cons.injEq]

theorem veqEntries_iff (es fs : List (Value × Value))
    (ih : ∀ k v, (k, v) ∈ es → (∀ w, veq k w = true ↔ k = w) ∧ (∀ w, veq v w = true ↔ v = w)) :
    veqEntries es fs = true ↔ es = fs := by
  induction es generalizing fs with
  | nil => cases fs <;> simp [veqEntries]
  | cons e es ihe =>
    obtain ⟨k, v⟩ := e
    cases fs with
    | nil => simp [veqEntries]
    | cons e' fs =>
      obtain ⟨k', w⟩ := e'
      simp only [veqEntries, Bool.and_eq_true,
        (ih k v (List.mem_cons_self _ _)).1 k',
        (ih k v (List.mem_cons_self _ _)).2 w,
        ihe fs (fun k v h => ih k v (List.mem_cons_of_mem _ h)),
        List.cons.injEq, Prod.mk.injEq]

/-- `veq` decides propositional equality on `Value`. -/
theorem veq_iff (a : Value) : ∀ b, veq a b = true ↔ a = b := by
  induction a using value_induction with
  | hscalar n =>
    intro b; cases b <;> simp [veq]
  | hrecord fs ih =>
    intro b; cases b <;> simp [veq, veqFields_iff fs _ ih]
  | hunion n v ih =>
    intro b; cases b <;> simp [veq, ih]
  | hseq xs ih =>
    intro b; cases b <;> simp [veq, veqList_iff xs _ ih]
  | hsset xs ih =>
    intro b; cases b <;> simp [veq, veqList_iff xs _ ih]
  | hvmap es ih =>
    intro b; cases b <;> simp [veq, veqEntries_iff es _ ih]

instance : DecidableEq Value := fun a b =>
  decidable_of_iff (veq a b = true) (veq_iff a b)

theorem veq_refl (a : Value) : veq a a = true := (veq_iff a a).mpr rfl

theorem any_veq_iff_mem (x : Value) (ys : List Value) :
    ys.any (veq x) = true ↔ x ∈ ys := by
  simp only [List.any_eq_true]
  constructor
  · rintro ⟨y, hy, hxy⟩
    rw [(veq_iff x y).mp hxy]
    exact hy
  · intro hx
    exact ⟨x, hx, veq_refl x⟩

theorem distinctB_iff (xs : List Value) : distinctB xs = true ↔ xs.Nodup := by
  induction xs with
  | nil => simp [distinctB]
  | cons x xs ih =>
    simp only [distinctB, Bool.and_eq_true, Bool.not_eq_true', List.nodup_cons,
      ← ih]
    constructor
    · rintro ⟨h1, h2⟩
      refine ⟨fun hx => ?_, h2⟩
      rw [(any_veq_iff_mem x xs).mpr hx] at h1
      exact Bool.noConfusion h1
    · rintro ⟨h1, h2⟩
      refine ⟨?_, h2⟩
      cases ha : xs.any (veq x) with
      | false => rfl
      | true => exact absurd ((any_veq_iff_mem x xs).mp ha) h1

theorem lookupVal_mem {k v : Value} {es : List (Value × Value)}
    (h : lookupVal k es = some v) : (k, v) ∈ es := by
  induction es with
  | nil => simp [lookupVal] at h
  | cons e es ih =>
    obtain ⟨k', v'⟩ := e
    rw [lookupVal] at h
    by_cases hk : veq k' k
    · rw [if_pos hk] at h
      cases h
      rw [(veq_iff k' k).mp hk]
      exact List.mem_cons_self _ _
    · rw [if_neg hk] at h
      exact List.mem_cons_of_mem _ (ih h)

theorem lookupVal_of_mem_nodup {k v : Value} {es : List (Value × Value)}
    (hnd : (es.map Prod.fst).Nodup) (h : (k, v) ∈ es) :
    lookupVal k es = some v := by
  induction es with
  | nil => simp at h
  | cons e es ih =>
    obtain ⟨k', v'⟩ := e
    simp only [List.map_cons, List.nodup_cons] at hnd
    rcases List.mem_cons.mp h with h1 | h1
    · cases h1
      rw [lookupVal, if_pos (veq_refl k)]
    · rw [lookupVal]
      have hk : ¬ (veq k' k = true) := by
        intro hk
        rw [(veq_iff k' k).mp hk] at hnd
        exact hnd.1 (List.mem_map.mpr ⟨(k, v), h1, rfl⟩)
      rw [if_neg hk]
      exact ih hnd.2 h1

theorem lookupVal_none_iff {k : Value} {es : List (Value × Value)} :
    lookupVal k es = none ↔ ∀ v, (k, v) ∉ es := by
  induction es with
  | nil => simp [lookupVal]
  | cons e es ih =>
    obtain ⟨k', v'⟩ := e
    rw [lookupVal]
    by_cases hk : veq k' k
    · rw [if_pos hk, (veq_iff k' k).mp hk]
      constructor
      · intro h; cases h
      · intro h
        exact absurd (List.mem_cons_self (k, v') es) (h v')
    · rw [if_neg hk, ih]
      constructor
      · intro h v hv
        rcases List.mem_cons.mp hv with h1 | h1
        · apply hk
          rw [Prod.mk.injEq] at h1
          rw [(veq_iff k' k).mpr h1.1.symm]
        · exact h v h1
      · intro h v hv
        exact h v (List.mem_cons_of_mem _ hv)

theorem visitFields_fst_iff (p : String) (fs gs : List (String × Value))
    (ih : ∀ n v, (n, v) ∈ fs → ∀ w q, ((visit q v w).1 = true ↔ (visit q v w).2 = [])) :
    ((visitFields p fs gs).1 = true ↔ (visitFields p fs gs).2 = []) := by
  induction fs generalizing gs with
  | nil => simp [visitFields]
  | cons e fs ihf =>
    obtain ⟨n, v⟩ := e
    cases gs with
    | nil => simp [visitFields]
    | cons e' gs =>
      obtain ⟨m, w⟩ := e'
      simp only [visitFields, Bool.and_eq_true, List.append_eq_nil]
      rw [ih n v (List.mem_cons_self _ _) w (p ++ "." ++ n),
        ihf gs (fun n v h => ih n v (List.mem_cons_of_mem _ h))]

theorem visitSeq_fst_iff (p : String) (i : Nat) (xs ys : List Value)
    (ih : ∀ v ∈ xs, ∀ w q, ((visit q v w).1 = true ↔ (visit q v w).2 = [])) :
    ((visitSeq p i xs ys).1 = true ↔ (visitSeq p i xs ys).2 = []) := by
  induction xs generalizing ys i with
  | nil => simp [visitSeq]
  | cons x xs ihl =>
    cases ys with
    | nil => simp [visitSeq]
    | cons y ys =>
      simp only [visitSeq, Bool.and_eq_true, List.append_eq_nil]
      rw [ih x (List.mem_cons_self _ _) y _,
        ihl (i + 1) ys (fun v h => ih v (List.mem_cons_of_mem _ h))]

theorem visitMapL_fst_iff (l r : Value) (p : String)
    (fs es : List (Value × Value))
    (ih : ∀ k v, (k, v) ∈ es → ∀ w q, ((visit q v w).1 = true ↔ (visit q v w).2 = [])) :
    ((visitMapL l r p fs es).1 = true ↔ (visitMapL l r p fs es).2 = []) := by
  induction es with
  | nil => simp [visitMapL]
  | cons e es ihe =>
    obtain ⟨k, v⟩ := e
    cases hlk : lookupVal k fs with
    | none => simp [visitMapL, hlk]
    | some w =>
      simp only [visitMapL, hlk, Bool.and_eq_true, List.append_eq_nil]
      rw [ih k v (List.mem_cons_self _ _) w _,
        ihe (fun k v h => ih k v (List.mem_cons_of_mem _ h))]

theorem visit_fst_iff (a : Value) :
    ∀ b p, ((visit p a b).1 = true ↔ (visit p a b).2 = []) := by
  induction a using value_induction with
  | hscalar n =>
    intro b p
    cases b with
    | scalar m => by_cases h : n = m <;> simp [visit, h]
    | record gs => simp [visit]
    | union m w => simp [visit]
    | seq ys => simp [visit]
    | sset ys => simp [visit]
    | vmap fs => simp [visit]
  | hrecord fs ih =>
    intro b p
    cases b with
    | record gs =>
      simp only [visit]
      exact visitFields_fst_iff p fs gs ih
    | scalar m => simp [visit]
    | union m w => simp [visit]
    | seq ys => simp [visit]
    | sset ys => simp [visit]
    | vmap gs => simp [visit]
  | hunion n v ih =>
    intro b p
    cases b with
    | union m w =>
      by_cases h : n = m
      · simp only [visit, if_pos h]
        exact ih w (p ++ "." ++ n)
      · simp [visit, h]
    | scalar m => simp [visit]
    | record gs => simp [visit]
    | seq ys => simp [visit]
    | sset ys => simp [visit]
    | vmap gs => simp [visit]
  | hseq xs ih =>
    intro b p
    cases b with
    | seq ys =>
      by_cases h : xs.length = ys.length
      · simp only [visit, if_pos h]
        exact visitSeq_fst_iff p 0 xs ys ih
      · simp [visit, h]
    | scalar m => simp [visit]
    | record gs => simp [visit]
    | union m w => simp [visit]
    | sset ys => simp [visit]
    | vmap gs => simp [visit]
  | hsset xs ih =>
    intro b p
    cases b with
    | sset ys => simp [visit, List.isEmpty_iff, List.append_eq_nil]
    | scalar m => simp [visit]
    | record gs => simp [visit]
    | union m w => simp [visit]
    | seq ys => simp [visit]
    | vmap gs => simp [visit]
  | hvmap es ih =>
    intro b p
    cases b with
    | vmap fs =>
      simp only [visit, Bool.and_eq_true, List.append_eq_nil,
        List.isEmpty_iff, List.map_eq_nil_iff]
      rw [visitMapL_fst_iff _ _ p fs es (fun k v h => (fun w q => (ih k v h).2 w q))]
    | scalar m => simp [visit]
    | record gs => simp [visit]
    | union m w => simp [visit]
    | seq ys => simp [visit]
    | sset ys => simp [visit]

/-- C1: for every pair of values and any callback, `debug_equals` returns
`true` iff zero mismatches were reported, i.e. iff the list of reports handed
to the callback over the entire traversal is empty. -/
theorem c1_true_iff_no_mismatch (lhs rhs : Value) :
    ((debug_equals lhs rhs).1 = true ↔ (debug_equals lhs rhs).2 = []) :=
  visit_fst_iff lhs rhs "<root>"

theorem fieldsHaveTypes_mem {fs : List (String × Value)} {ts : List (String × Ty)}
    (h : fieldsHaveTypes fs ts = true) {n : String} {v : Value} (hm : (n, v) ∈ fs) :
    ∃ t, hasType v t = true := by
  induction fs generalizing ts with
  | nil => simp at hm
  | cons e fs ihf =>
    obtain ⟨n', v'⟩ := e
    cases ts with
    | nil => simp [fieldsHaveTypes] at h
    | cons e' ts =>
      obtain ⟨m, t⟩ := e'
      simp only [fieldsHaveTypes, Bool.and_eq_true] at h
      rcases List.mem_cons.mp hm with h1 | h1
      · rw [Prod.mk.injEq] at h1
        exact ⟨t, h1.2 ▸ h.1.2⟩
      · exact ihf h.2 h1

theorem listHasType_mem {xs : List Value} {t : Ty}
    (h : listHasType xs t = true) {v : Value} (hm : v ∈ xs) :
    hasType v t = true := by
  induction xs with
  | nil => simp at hm
  | cons x xs ihl =>
    simp only [listHasType, Bool.and_eq_true] at h
    rcases List.mem_cons.mp hm with h1 | h1
    · exact h1 ▸ h.1
    · exact ihl h.2 h1

theorem entriesHaveTypes_mem {es : List (Value × Value)} {kt vt : Ty}
    (h : entriesHaveTypes es kt vt = true) {k v : Value} (hm : (k, v) ∈ es) :
    hasType k kt = true ∧ hasType v vt = true := by
  induction es with
  | nil => simp at hm
  | cons e es ihe =>
    obtain ⟨k', v'⟩ := e
    simp only [entriesHaveTypes, Bool.and_eq_true] at h
    rcases List.mem_cons.mp hm with h1 | h1
    · rw [Prod.mk.injEq] at h1
      exact ⟨h1.1 ▸ h.1.1, h1.2 ▸ h.1.2⟩
    · exact ihe h.2 h1

theorem visitFields_refl (p : String) (fs : List (String × Value))
    (ih : ∀ n v, (n, v) ∈ fs → ∀ q, visit q v v = (true, [])) :
    visitFields p fs fs = (true, []) := by
  induction fs with
  | nil => simp [visitFields]
  | cons e fs ihf =>
    obtain ⟨n, v⟩ := e
    simp only [visitFields, ih n v (List.mem_cons_self _ _) (p ++ "." ++ n),
      ihf (fun n v h => ih n v (List.mem_cons_of_mem _ h))]
    rfl

theorem visitSeq_refl (p : String) (i : Nat) (xs : List Value)
    (ih : ∀ v ∈ xs, ∀ q, visit q v v = (true, [])) :
    visitSeq p i xs xs = (true, []) := by
  induction xs generalizing i with
  | nil => simp [visitSeq]
  | cons x xs ihl =>
    simp only [visitSeq, ih x (List.mem_cons_self _ _) _,
      ihl (i + 1) (fun v h => ih v (List.mem_cons_of_mem _ h))]
    rfl

theorem visitMapL_refl (l r : Value) (p : String) (es es0 : List (Value × Value))
    (hnd : (es.map Prod.fst).Nodup) (hsub : ∀ e ∈ es0, e ∈ es)
    (ih : ∀ k v, (k, v) ∈ es0 → ∀ q, visit q v v = (true, [])) :
    visitMapL l r p es es0 = (true, []) := by
  induction es0 with
  | nil => simp [visitMapL]
  | cons e es0 ihe =>
    obtain ⟨k, v⟩ := e
    have hlk : lookupVal k es = some v :=
      lookupVal_of_mem_nodup hnd (hsub (k, v) (List.mem_cons_self _ _))
    simp only [visitMapL, hlk, ih k v (List.mem_cons_self _ _) _,
      ihe (fun e h => hsub e (List.mem_cons_of_mem _ h))
        (fun k v h => ih k v (List.mem_cons_of_mem _ h))]
    rfl

/-- Reflexivity of the traversal on any well-typed value: no report is ever
produced and the result is `true`. -/
theorem visit_refl (v : Value) :
    ∀ t, hasType v t = true → ∀ p, visit p v v = (true, []) := by
  induction v using value_induction with
  | hscalar n =>
    intro t ht p
    simp [visit]
  | hrecord fs ih =>
    intro t ht p
    cases t <;> simp only [hasType] at ht <;> try exact Bool.noConfusion ht
    case record ts =>
      simp only [visit]
      refine visitFields_refl p fs (fun n v hm q => ?_)
      obtain ⟨t, htv⟩ := fieldsHaveTypes_mem ht hm
      exact ih n v hm t htv q
  | hunion n v ih =>
    intro t ht p
    cases t <;> simp only [hasType] at ht <;> try exact Bool.noConfusion ht
    case union vars =>
      cases hl : lookupTy n vars with
      | none => rw [hl] at ht; exact Bool.noConfusion ht
      | some t' =>
        rw [hl] at ht
        simp only [visit, if_pos rfl]
        exact ih t' ht (p ++ "." ++ n)
  | hseq xs ih =>
    intro t ht p
    cases t <;> simp only [hasType] at ht <;> try exact Bool.noConfusion ht
    case seq t' =>
      simp only [visit, if_pos rfl]
      exact visitSeq_refl p 0 xs (fun v hm q => ih v hm t' (listHasType_mem ht hm) q)
  | hsset xs ih =>
    intro t ht p
    have h1 : xs.filter (fun x => !(xs.any (veq x))) = [] := by
      rw [List.filter_eq_nil_iff]
      intro x hx
      simp only [Bool.not_eq_true', Bool.not_eq_false, List.any_eq_true]
      exact ⟨x, hx, veq_refl x⟩
    simp [visit, h1]
  | hvmap es ih =>
    intro t ht p
    cases t <;> simp only [hasType] at ht <;> try exact Bool.noConfusion ht
    case vmap kt vt =>
      rw [Bool.and_eq_true] at ht
      have hnd : (es.map Prod.fst).Nodup := by
        rw [← distinctB_iff]
        exact ht.2
      simp only [visit]
      have h1 : visitMapL (.vmap es) (.vmap es) p es es = (true, []) := by
        refine visitMapL_refl _ _ p es es hnd (fun e h => h) (fun k v hm q => ?_)
        exact ih k v hm |>.2 vt (entriesHaveTypes_mem ht.1 hm).2 q
      have h2 : es.filter (fun e => (lookupVal e.1 es).isNone) = [] := by
        rw [List.filter_eq_nil_iff]
        rintro ⟨k, v⟩ he
        rw [lookupVal_of_mem_nodup hnd he]
        simp
      simp [h1, h2]

/-- C2: reflexivity: for every (well-typed) value `v` and any callback,
`debug_equals v v` returns `true` and the callback is never invoked (the
report list is empty). -/
theorem c2_reflexivity (v : Value) (t : Ty) (h : hasType v t = true) :
    (debug_equals v v).1 = true ∧ (debug_equals v v).2 = [] := by
  rw [debug_equals, visit_refl v t h "<root>"]
  exact ⟨rfl, rfl⟩

/-- Witness for C2 at a concrete composite value. -/
theorem c2_reflexivity_witness :
    hasType (Value.vmap [(.scalar 0, .sset [.scalar 1, .scalar 2])])
      (Ty.vmap .scalar (.sset .scalar)) = true ∧
    ((debug_equals (Value.vmap [(.scalar 0, .sset [.scalar 1, .scalar 2])])
        (Value.vmap [(.scalar 0, .sset [.scalar 1, .scalar 2])])).1 = true ∧
      (debug_equals (Value.vmap [(.scalar 0, .sset [.scalar 1, .scalar 2])])
        (Value.vmap [(.scalar 0, .sset [.scalar 1, .scalar 2])])).2 = []) := by
  have ht : hasType (Value.vmap [(.scalar 0, .sset [.scalar 1, .scalar 2])])
      (Ty.vmap .scalar (.sset .scalar)) = true := by
    simp [hasType, entriesHaveTypes, listHasType, distinctB, veq, veqList]
  exact ⟨ht, c2_reflexivity _ _ ht⟩

/-- C3: comparing two sequences of different lengths yields exactly one
mismatch, at the sequence's own path, with the size-discrepancy message, and
no element-wise comparison is performed (no element-level report appears, even
for positions holding equal elements). -/
theorem c3_sequence_length_short_circuit (p : String) (xs ys : List Value)
    (h : xs.length ≠ ys.length) :
    visit p (.seq xs) (.seq ys) = (false, [⟨.seq xs, .seq ys, p,
      "size mismatch: " ++ toString xs.length ++ " vs " ++ toString ys.length⟩]) := by
  simp [visit, h]

/-- Witness for C3: `[1,2,3]` against `[1,2]` (equal at positions 0 and 1). -/
theorem c3_sequence_length_short_circuit_witness :
    ([Value.scalar 1, .scalar 2, .scalar 3].length ≠ [Value.scalar 1, .scalar 2].length) ∧
    visit "<root>" (.seq [.scalar 1, .scalar 2, .scalar 3]) (.seq [.scalar 1, .scalar 2])
      = (false, [⟨.seq [.scalar 1, .scalar 2, .scalar 3], .seq [.scalar 1, .scalar 2],
          "<root>",
          "size mismatch: " ++ toString ([Value.scalar 1, .scalar 2, .scalar 3].length)
            ++ " vs " ++ toString ([Value.scalar 1, .scalar 2].length)⟩]) :=
  ⟨by decide,
    c3_sequence_length_short_circuit "<root>"
      [.scalar 1, .scalar 2, .scalar 3] [.scalar 1, .scalar 2] (by decide)⟩

/-- C4: when two unions' active variants differ, exactly one mismatch is
reported at the union's own path, with a message naming both active variants,
and there is no descent into either variant's contents; when the active
variants agree, the engine recurses into the shared variant's value with the
path extended by the variant name. -/
theorem c4_union_variant (p : String) (n m : String) (v w : Value) :
    (n ≠ m → visit p (.union n v) (.union m w) =
      (false, [⟨.union n v, .union m w, p,
        "variant mismatch: " ++ n ++ " vs " ++ m⟩])) ∧
    visit p (.union n v) (.union n w) = visit (p ++ "." ++ n) v w := by
  constructor
  · intro h
    simp [visit, h]
  · simp [visit]

/-- Witness for C4: active variants `A` and `B`. -/
theorem c4_union_variant_witness :
    ("A" : String) ≠ "B" ∧
    visit "<root>" (.union "A" (.scalar 1)) (.union "B" (.scalar 1))
      = (false, [⟨.union "A" (.scalar 1), .union "B" (.scalar 1), "<root>",
          "variant mismatch: " ++ "A" ++ " vs " ++ "B"⟩]) :=
  ⟨by decide,
    (c4_union_variant "<root>" "A" "B" (.scalar 1) (.scalar 1)).1 (by decide)⟩

theorem visitFields_append (p : String) (fs1 gs1 fs2 gs2 : List (String × Value))
    (hlen : fs1.length = gs1.length) :
    visitFields p (fs1 ++ fs2) (gs1 ++ gs2)
      = ((visitFields p fs1 gs1).1 && (visitFields p fs2 gs2).1,
         (visitFields p fs1 gs1).2 ++ (visitFields p fs2 gs2).2) := by
  induction fs1 generalizing gs1 with
  | nil =>
    cases gs1 with
    | nil => simp [visitFields]
    | cons e gs1 => simp at hlen
  | cons e fs1 ihf =>
    obtain ⟨n, v⟩ := e
    cases gs1 with
    | nil => simp at hlen
    | cons e' gs1 =>
      obtain ⟨m, w⟩ := e'
      simp only [List.cons_append, visitFields]
      rw [ihf gs1 (by simpa using hlen)]
      simp [Bool.and_assoc, List.append_assoc]

/-- C5: two records (arbitrary shared prefix `A`, middle `B` and suffix `C` of
equal, well-typed fields) that differ exactly in the scalar fields named `x`
and `y` produce exactly two mismatches, at paths `.x` and `.y` in field order,
and no others: the traversal recurses into every field and does not stop at
the first mismatching field. -/
theorem c5_record_exhaustive (p x y : String) (a b c d : Nat)
    (A B C : List (String × Value))
    (htyped : ∀ n v, (n, v) ∈ A ++ B ++ C → ∃ t, hasType v t = true)
    (hab : a ≠ b) (hcd : c ≠ d) :
    visit p (.record (A ++ (x, Value.scalar a) :: (B ++ (y, Value.scalar c) :: C)))
      (.record (A ++ (x, Value.scalar b) :: (B ++ (y, Value.scalar d) :: C)))
      = (false,
        [⟨.scalar a, .scalar b, p ++ "." ++ x, "values are not equal"⟩,
         ⟨.scalar c, .scalar d, p ++ "." ++ y, "values are not equal"⟩]) := by
  have hrefl : ∀ (L : List (String × Value)), (∀ e ∈ L, e ∈ A ++ B ++ C) →
      visitFields p L L = (true, []) := by
    intro L hsub
    refine visitFields_refl p L (fun n v hm q => ?_)
    obtain ⟨t, ht⟩ := htyped n v (hsub (n, v) hm)
    exact visit_refl v t ht q
  have hA := hrefl A (fun e he => by simp [he])
  have hB := hrefl B (fun e he => by simp [he])
  have hC := hrefl C (fun e he => by simp [he])
  simp only [visit]
  rw [visitFields_append p A A _ _ rfl, hA]
  simp only [visitFields]
  rw [visitFields_append p B B _ _ rfl, hB]
  simp only [visitFields]
  rw [hC]
  simp [visit, hab, hcd]

/-- Witness for C5: records `{u:7, x:1, y:3, w:8}` and `{u:7, x:2, y:4, w:8}`
differing exactly in `x` and `y`. -/
theorem c5_record_exhaustive_witness :
    (∀ n v, (n, v) ∈ ([("u", Value.scalar 7)] ++ [] ++ [("w", Value.scalar 8)])
      → ∃ t, hasType v t = true) ∧
    (1 : Nat) ≠ 2 ∧ (3 : Nat) ≠ 4 ∧
    visit "<root>"
      (.record ([("u", Value.scalar 7)] ++ ("x", Value.scalar 1)
        :: ([] ++ ("y", Value.scalar 3) :: [("w", Value.scalar 8)])))
      (.record ([("u", Value.scalar 7)] ++ ("x", Value.scalar 2)
        :: ([] ++ ("y", Value.scalar 4) :: [("w", Value.scalar 8)])))
      = (false,
        [⟨.scalar 1, .scalar 2, "<root>" ++ "." ++ "x", "values are not equal"⟩,
         ⟨.scalar 3, .scalar 4, "<root>" ++ "." ++ "y", "values are not equal"⟩]) := by
  have htyped : ∀ n v, (n, v) ∈ ([("u", Value.scalar 7)] ++ [] ++ [("w", Value.scalar 8)])
      → ∃ t, hasType v t = true := by
    intro n v h
    simp only [List.append_nil, List.mem_append, List.mem_singleton,
      Prod.mk.injEq] at h
    rcases h with ⟨h1, h2⟩ | ⟨h1, h2⟩ <;>
      exact ⟨.scalar, by simp [h2, hasType]⟩
  exact ⟨htyped, by decide, by decide,
    c5_record_exhaustive "<root>" "x" "y" 1 2 3 4
      [("u", Value.scalar 7)] [] [("w", Value.scalar 8)]
      htyped (by decide) (by decide)⟩

theorem veq_eq_false_of_ne {x y : Value} (h : x ≠ y) : veq x y = false :=
  Bool.eq_false_iff.mpr (fun hxy => h ((veq_iff x y).mp hxy))

theorem visitMapL_reports (l rv : Value) (p : String)
    (fs : List (Value × Value)) :
    ∀ es, (visitMapL l rv p fs es).2
      = es.flatMap (fun e =>
          match lookupVal e.1 fs with
          | none => [⟨l, rv, p, "key " ++ render e.1 ++ " missing in rhs"⟩]
          | some w => (visit (p ++ "[" ++ render e.1 ++ "]") e.2 w).2) := by
  intro es
  induction es with
  | nil => simp [visitMapL]
  | cons e es ihe =>
    obtain ⟨k, v⟩ := e
    cases hlk : lookupVal k fs with
    | none => simp [visitMapL, hlk, ihe]
    | some w => simp [visitMapL, hlk, ihe]

theorem pair_veq_iff (e : Value × Value) (k v : Value) :
    ((veq e.1 k && veq e.2 v) = true) ↔ e = (k, v) := by
  obtain ⟨a, b⟩ := e
  simp [Bool.and_eq_true, veq_iff, Prod.mk.injEq]

theorem countP_pair_eq_one {l : List (Value × Value)} {k v : Value}
    (hnd : l.Nodup) (hm : (k, v) ∈ l) :
    l.countP (fun e => veq e.1 k && veq e.2 v) = 1 := by
  induction l with
  | nil => simp at hm
  | cons e l ih =>
    rw [List.countP_cons]
    rcases List.mem_cons.mp hm with h | h
    · subst h
      have hzero : l.countP (fun e => veq e.1 k && veq e.2 v) = 0 := by
        rw [List.countP_eq_zero]
        intro e' he' hpe
        rw [pair_veq_iff] at hpe
        subst hpe
        exact (List.nodup_cons.mp hnd).1 he'
      simp [hzero, pair_veq_iff, veq_refl]
    · have hne : ¬((veq e.1 k && veq e.2 v) = true) := by
        rw [pair_veq_iff]
        intro he
        subst he
        exact (List.nodup_cons.mp hnd).1 h
      simp only [hne, if_neg hne, Nat.add_zero, if_false]
      exact ih (List.nodup_cons.mp hnd).2 h

/-- C6: map comparison, for every pair of (well-typed) map values.
(1) The report list decomposes per key: each left-side entry whose key is
absent from the right contributes exactly one missing-key report — naming the
key and the lacking side — at the map's own path; each entry whose key is
present in both sides contributes exactly the reports of the recursion into
the two values at the path extended by the key's textual rendering; every
entry contributes regardless of mismatches at earlier keys (the traversal
continues after a value mismatch); after the left pass, each right-side entry
whose key is absent from the left contributes exactly one missing-key report
at the map's own path.
(2)/(3) Keys being duplicate-free, a one-sided key occurs exactly once in the
generating list, hence is reported as exactly one mismatch.
(4) A key mapped to equal values on both sides contributes no report. -/
theorem c6_map_keys_and_values (p : String) (kt vt : Ty)
    (es fs : List (Value × Value))
    (ha : hasType (.vmap es) (.vmap kt vt) = true)
    (hb : hasType (.vmap fs) (.vmap kt vt) = true) :
    ((visit p (.vmap es) (.vmap fs)).2
      = es.flatMap (fun e =>
          match lookupVal e.1 fs with
          | none => [⟨.vmap es, .vmap fs, p,
              "key " ++ render e.1 ++ " missing in rhs"⟩]
          | some w => (visit (p ++ "[" ++ render e.1 ++ "]") e.2 w).2)
        ++ (fs.filter (fun e => (lookupVal e.1 es).isNone)).map
            (fun e => ⟨.vmap es, .vmap fs, p,
              "key " ++ render e.1 ++ " missing in lhs"⟩)) ∧
    (∀ k v, (k, v) ∈ es → lookupVal k fs = none →
      (es.filter (fun e => (lookupVal e.1 fs).isNone)).countP
        (fun e => veq e.1 k && veq e.2 v) = 1) ∧
    (∀ k w, (k, w) ∈ fs → lookupVal k es = none →
      (fs.filter (fun e => (lookupVal e.1 es).isNone)).countP
        (fun e => veq e.1 k && veq e.2 w) = 1) ∧
    (∀ k v, (k, v) ∈ es → lookupVal k fs = some v →
      (visit (p ++ "[" ++ render k ++ "]") v v).2 = []) := by
  simp only [hasType, Bool.and_eq_true] at ha hb
  have hndes : es.Nodup := ((distinctB_iff _).mp ha.2).of_map
  have hndfs : fs.Nodup := ((distinctB_iff _).mp hb.2).of_map
  refine ⟨?_, ?_, ?_, ?_⟩
  · simp only [visit]
    rw [visitMapL_reports]
  · intro k v hm hn
    refine countP_pair_eq_one (hndes.filter _) (List.mem_filter.mpr ⟨hm, ?_⟩)
    simp [hn]
  · intro k w hm hn
    refine countP_pair_eq_one (hndfs.filter _) (List.mem_filter.mpr ⟨hm, ?_⟩)
    simp [hn]
  · intro k v hm hs
    rw [visit_refl v vt (entriesHaveTypes_mem ha.1 hm).2 _]

/-- Witness for C6: maps `{10:1, 20:2, 40:3}` and `{10:1}` (two one-sided
keys on the left-hand map), with scalar key and value types. -/
theorem c6_map_keys_and_values_witness :
    hasType (Value.vmap [(.scalar 10, .scalar 1), (.scalar 20, .scalar 2),
        (.scalar 40, .scalar 3)]) (Ty.vmap .scalar .scalar) = true ∧
    hasType (Value.vmap [(.scalar 10, .scalar 1)]) (Ty.vmap .scalar .scalar) = true ∧
    (((visit "<root>"
        (.vmap [(.scalar 10, .scalar 1), (.scalar 20, .scalar 2),
          (.scalar 40, .scalar 3)])
        (.vmap [(.scalar 10, .scalar 1)])).2
      = [(Value.scalar 10, Value.scalar 1), (.scalar 20, .scalar 2),
          (.scalar 40, .scalar 3)].flatMap (fun e =>
          match lookupVal e.1 [(Value.scalar 10, Value.scalar 1)] with
          | none => [⟨.vmap [(.scalar 10, .scalar 1), (.scalar 20, .scalar 2),
              (.scalar 40, .scalar 3)], .vmap [(.scalar 10, .scalar 1)], "<root>",
              "key " ++ render e.1 ++ " missing in rhs"⟩]
          | some w =>
            (visit ("<root>" ++ "[" ++ render e.1 ++ "]") e.2 w).2)
        ++ ([(Value.scalar 10, Value.scalar 1)].filter
            (fun e => (lookupVal e.1 [(Value.scalar 10, Value.scalar 1),
              (.scalar 20, .scalar 2), (.scalar 40, .scalar 3)]).isNone)).map
            (fun e => ⟨.vmap [(.scalar 10, .scalar 1), (.scalar 20, .scalar 2),
              (.scalar 40, .scalar 3)], .vmap [(.scalar 10, .scalar 1)], "<root>",
              "key " ++ render e.1 ++ " missing in lhs"⟩)) ∧
    (∀ k v, (k, v) ∈ [(Value.scalar 10, Value.scalar 1), (.scalar 20, .scalar 2),
        (.scalar 40, .scalar 3)] →
      lookupVal k [(Value.scalar 10, Value.scalar 1)] = none →
      ([(Value.scalar 10, Value.scalar 1), (.scalar 20, .scalar 2),
        (.scalar 40, .scalar 3)].filter
        (fun e => (lookupVal e.1 [(Value.scalar 10, Value.scalar 1)]).isNone)).countP
          (fun e => veq e.1 k && veq e.2 v) = 1) ∧
    (∀ k w, (k, w) ∈ [(Value.scalar 10, Value.scalar 1)] →
      lookupVal k [(Value.scalar 10, Value.scalar 1), (.scalar 20, .scalar 2),
        (.scalar 40, .scalar 3)] = none →
      ([(Value.scalar 10, Value.scalar 1)].filter
        (fun e => (lookupVal e.1 [(Value.scalar 10, Value.scalar 1),
          (.scalar 20, .scalar 2), (.scalar 40, .scalar 3)]).isNone)).countP
          (fun e => veq e.1 k && veq e.2 w) = 1) ∧
    (∀ k v, (k, v) ∈ [(Value.scalar 10, Value.scalar 1), (.scalar 20, .scalar 2),
        (.scalar 40, .scalar 3)] →
      lookupVal k [(Value.scalar 10, Value.scalar 1)] = some v →
      (visit ("<root>" ++ "[" ++ render k ++ "]") v v).2 = [])) := by
  have h1 : hasType (Value.vmap [(.scalar 10, .scalar 1), (.scalar 20, .scalar 2),
      (.scalar 40, .scalar 3)]) (Ty.vmap .scalar .scalar) = true := by
    simp [hasType, entriesHaveTypes, distinctB, veq]
  have h2 : hasType (Value.vmap [(.scalar 10, .scalar 1)])
      (Ty.vmap .scalar .scalar) = true := by
    simp [hasType, entriesHaveTypes, distinctB, veq]
  exact ⟨h1, h2, c6_map_keys_and_values "<root>" .scalar .scalar _ _ h1 h2⟩

/-- C7: set comparison is unordered.  The reports are exactly one per
occurrence of a symmetric-difference element — in a duplicate-free set each
such element occurs exactly once in the generating list — each at the set's
own path `p` (never a per-element path extension), with the message naming
the offending element and the side it is missing from; elements present on
both sides generate no report. -/
theorem c7_set_symmetric_difference (p : String) (xs ys : List Value)
    (hx : xs.Nodup) (hy : ys.Nodup) :
    ((visit p (.sset xs) (.sset ys)).2
      = (xs.filter (fun x => !(ys.any (veq x)))).map
          (fun x => ⟨.sset xs, .sset ys, p,
            "element " ++ render x ++ " missing in rhs"⟩)
        ++ (ys.filter (fun y => !(xs.any (veq y)))).map
          (fun y => ⟨.sset xs, .sset ys, p,
            "element " ++ render y ++ " missing in lhs"⟩)) ∧
    (∀ r ∈ (visit p (.sset xs) (.sset ys)).2, r.path = p) ∧
    (∀ x, x ∈ xs → x ∉ ys →
      (xs.filter (fun x' => !(ys.any (veq x')))).count x = 1) ∧
    (∀ y, y ∈ ys → y ∉ xs →
      (ys.filter (fun y' => !(xs.any (veq y')))).count y = 1) ∧
    (∀ x, x ∈ xs → x ∈ ys →
      x ∉ xs.filter (fun x' => !(ys.any (veq x')))
        ∧ x ∉ ys.filter (fun y' => !(xs.any (veq y')))) := by
  have hpred : ∀ (x : Value) (zs : List Value),
      (!(zs.any (veq x))) = true ↔ x ∉ zs := by
    intro x zs
    rw [Bool.not_eq_true']
    constructor
    · intro h hmem
      rw [(any_veq_iff_mem x zs).mpr hmem] at h
      cases h
    · intro h
      cases hb : zs.any (veq x) with
      | false => rfl
      | true => exact absurd ((any_veq_iff_mem x zs).mp hb) h
  refine ⟨by simp [visit], ?_, ?_, ?_, ?_⟩
  · intro r hr
    simp only [visit, List.mem_append, List.mem_map] at hr
    rcases hr with ⟨x, hx', rfl⟩ | ⟨y, hy', rfl⟩ <;> rfl
  · intro x hmem hnot
    have h1 : (xs.filter (fun x' => !(ys.any (veq x')))).count x = xs.count x :=
      List.count_filter ((hpred x ys).mpr hnot)
    rw [h1]
    exact List.count_eq_one_of_mem hx hmem
  · intro y hmem hnot
    have h1 : (ys.filter (fun y' => !(xs.any (veq y')))).count y = ys.count y :=
      List.count_filter ((hpred y xs).mpr hnot)
    rw [h1]
    exact List.count_eq_one_of_mem hy hmem
  · intro x hxs hys
    constructor
    · intro hmem
      exact absurd hys ((hpred x ys).mp (List.mem_filter.mp hmem).2)
    · intro hmem
      exact absurd hxs ((hpred x xs).mp (List.mem_filter.mp hmem).2)

/-- Witness for C7: sets `{1, 2}` and `{1, 3}`. -/
theorem c7_set_symmetric_difference_witness :
    ([Value.scalar 1, .scalar 2].Nodup) ∧ ([Value.scalar 1, .scalar 3].Nodup) ∧
    (((visit "<root>" (.sset [.scalar 1, .scalar 2]) (.sset [.scalar 1, .scalar 3])).2
      = ([Value.scalar 1, .scalar 2].filter
          (fun x => !([Value.scalar 1, .scalar 3].any (veq x)))).map
          (fun x => ⟨.sset [.scalar 1, .scalar 2], .sset [.scalar 1, .scalar 3], "<root>",
            "element " ++ render x ++ " missing in rhs"⟩)
        ++ ([Value.scalar 1, .scalar 3].filter
          (fun y => !([Value.scalar 1, .scalar 2].any (veq y)))).map
          (fun y => ⟨.sset [.scalar 1, .scalar 2], .sset [.scalar 1, .scalar 3], "<root>",
            "element " ++ render y ++ " missing in lhs"⟩)) ∧
    (∀ r ∈ (visit "<root>" (.sset [.scalar 1, .scalar 2]) (.sset [.scalar 1, .scalar 3])).2,
      r.path = "<root>") ∧
    (∀ x, x ∈ [Value.scalar 1, .scalar 2] → x ∉ [Value.scalar 1, .scalar 3] →
      ([Value.scalar 1, .scalar 2].filter
        (fun x' => !([Value.scalar 1, .scalar 3].any (veq x')))).count x = 1) ∧
    (∀ y, y ∈ [Value.scalar 1, .scalar 3] → y ∉ [Value.scalar 1, .scalar 2] →
      ([Value.scalar 1, .scalar 3].filter
        (fun y' => !([Value.scalar 1, .scalar 2].any (veq y')))).count y = 1) ∧
    (∀ x, x ∈ [Value.scalar 1, .scalar 2] → x ∈ [Value.scalar 1, .scalar 3] →
      x ∉ [Value.scalar 1, .scalar 2].filter
        (fun x' => !([Value.scalar 1, .scalar 3].any (veq x')))
        ∧ x ∉ [Value.scalar 1, .scalar 3].filter
        (fun y' => !([Value.scalar 1, .scalar 2].any (veq y'))))) := by
  have hx : ([Value.scalar 1, .scalar 2]).Nodup := by simp
  have hy : ([Value.scalar 1, .scalar 3]).Nodup := by simp
  exact ⟨hx, hy, c7_set_symmetric_difference "<root>" _ _ hx hy⟩

theorem visitFieldsCB_eq {σ : Type} (cb : σ → Report → σ) (p : String)
    (fs gs : List (String × Value))
    (ih : ∀ n v, (n, v) ∈ fs → ∀ w q (s : σ),
      visitCB cb q v w s = ((visit q v w).1, (visit q v w).2.foldl cb s)) :
    ∀ s, visitFieldsCB cb p fs gs s
      = ((visitFields p fs gs).1, (visitFields p fs gs).2.foldl cb s) := by
  induction fs generalizing gs with
  | nil => intro s; cases gs <;> simp [visitFieldsCB, visitFields]
  | cons e fs ihf =>
    obtain ⟨n, v⟩ := e
    cases gs with
    | nil => intro s; simp [visitFieldsCB, visitFields]
    | cons e' gs =>
      obtain ⟨m, w⟩ := e'
      intro s
      simp only [visitFieldsCB, visitFields,
        ih n v (List.mem_cons_self _ _) w _ s,
        ihf gs (fun n v h => ih n v (List.mem_cons_of_mem _ h)) _,
        List.foldl_append]

theorem visitSeqCB_eq {σ : Type} (cb : σ → Report → σ) (p : String)
    (xs ys : List Value)
    (ih : ∀ v ∈ xs, ∀ w q (s : σ),
      visitCB cb q v w s = ((visit q v w).1, (visit q v w).2.foldl cb s)) :
    ∀ i (s : σ), visitSeqCB cb p i xs ys s
      = ((visitSeq p i xs ys).1, (visitSeq p i xs ys).2.foldl cb s) := by
  induction xs generalizing ys with
  | nil => intro i s; cases ys <;> simp [visitSeqCB, visitSeq]
  | cons x xs ihl =>
    cases ys with
    | nil => intro i s; simp [visitSeqCB, visitSeq]
    | cons y ys =>
      intro i s
      simp only [visitSeqCB, visitSeq,
        ih x (List.mem_cons_self _ _) y _ s,
        ihl ys (fun v h => ih v (List.mem_cons_of_mem _ h)) (i + 1) _,
        List.foldl_append]

theorem visitMapLCB_eq {σ : Type} (cb : σ → Report → σ) (l r : Value)
    (p : String) (fs es : List (Value × Value))
    (ih : ∀ k v, (k, v) ∈ es → ∀ w q (s : σ),
      visitCB cb q v w s = ((visit q v w).1, (visit q v w).2.foldl cb s)) :
    ∀ s, visitMapLCB cb l r p fs es s
      = ((visitMapL l r p fs es).1, (visitMapL l r p fs es).2.foldl cb s) := by
  induction es with
  | nil => intro s; simp [visitMapLCB, visitMapL]
  | cons e es ihe =>
    obtain ⟨k, v⟩ := e
    intro s
    cases hlk : lookupVal k fs with
    | none =>
      simp only [visitMapLCB, visitMapL, hlk,
        ihe (fun k v h => ih k v (List.mem_cons_of_mem _ h)) _,
        List.foldl_cons]
    | some w =>
      simp only [visitMapLCB, visitMapL, hlk,
        ih k v (List.mem_cons_self _ _) w _ s,
        ihe (fun k v h => ih k v (List.mem_cons_of_mem _ h)) _,
        List.foldl_append]

/-- The engine's interaction with an arbitrary stateful callback is exactly
one invocation per entry of the pure report list, in list order. -/
theorem visitCB_eq_foldl {σ : Type} (cb : σ → Report → σ) (a : Value) :
    ∀ b p (s : σ),
      visitCB cb p a b s = ((visit p a b).1, (visit p a b).2.foldl cb s) := by
  induction a using value_induction with
  | hscalar n =>
    intro b p s
    cases b with
    | scalar m => by_cases h : n = m <;> simp [visit, visitCB, h]
    | record gs => simp [visit, visitCB]
    | union m w => simp [visit, visitCB]
    | seq ys => simp [visit, visitCB]
    | sset ys => simp [visit, visitCB]
    | vmap gs => simp [visit, visitCB]
  | hrecord fs ih =>
    intro b p s
    cases b with
    | record gs =>
      simp only [visit, visitCB]
      exact visitFieldsCB_eq cb p fs gs ih s
    | scalar m => simp [visit, visitCB]
    | union m w => simp [visit, visitCB]
    | seq ys => simp [visit, visitCB]
    | sset ys => simp [visit, visitCB]
    | vmap gs => simp [visit, visitCB]
  | hunion n v ih =>
    intro b p s
    cases b with
    | union m w =>
      by_cases h : n = m
      · simp only [visit, visitCB, if_pos h]
        exact ih w (p ++ "." ++ n) s
      · simp [visit, visitCB, h]
    | scalar m => simp [visit, visitCB]
    | record gs => simp [visit, visitCB]
    | seq ys => simp [visit, visitCB]
    | sset ys => simp [visit, visitCB]
    | vmap gs => simp [visit, visitCB]
  | hseq xs ih =>
    intro b p s
    cases b with
    | seq ys =>
      by_cases h : xs.length = ys.length
      · simp only [visit, visitCB, if_pos h]
        exact visitSeqCB_eq cb p xs ys ih 0 s
      · simp [visit, visitCB, h]
    | scalar m => simp [visit, visitCB]
    | record gs => simp [visit, visitCB]
    | union m w => simp [visit, visitCB]
    | sset ys => simp [visit, visitCB]
    | vmap gs => simp [visit, visitCB]
  | hsset xs ih =>
    intro b p s
    cases b with
    | sset ys => simp [visit, visitCB, List.foldl_append]
    | scalar m => simp [visit, visitCB]
    | record gs => simp [visit, visitCB]
    | union m w => simp [visit, visitCB]
    | seq ys => simp [visit, visitCB]
    | vmap gs => simp [visit, visitCB]
  | hvmap es ih =>
    intro b p s
    cases b with
    | vmap fs =>
      simp only [visit, visitCB,
        visitMapLCB_eq cb (.vmap es) (.vmap fs) p fs es
          (fun k v h => (ih k v h).2) s,
        List.foldl_append]
    | scalar m => simp [visit, visitCB]
    | record gs => simp [visit, visitCB]
    | union m w => simp [visit, visitCB]
    | seq ys => simp [visit, visitCB]
    | sset ys => simp [visit, visitCB]

/-- C9: the engine is deterministic and mutation-free: for any callback
(modelled as a state transformer), running the engine equals folding the
callback over the pure report list `(debug_equals lhs rhs).2`, which is a
function of the inputs alone — so two invocations on the same unmodified
inputs produce the identical sequence of callback invocations (same
mismatches, order, paths and messages) and the same boolean. -/
theorem c9_callback_sequence_deterministic {σ : Type} (cb : σ → Report → σ)
    (lhs rhs : Value) (s : σ) :
    debug_equalsCB cb lhs rhs s
      = ((debug_equals lhs rhs).1, (debug_equals lhs rhs).2.foldl cb s) :=
  visitCB_eq_foldl cb lhs rhs "<root>" s

theorem visitFields_path_extends (p : String) (fs gs : List (String × Value))
    (ih : ∀ n v, (n, v) ∈ fs → ∀ w q, ∀ r ∈ (visit q v w).2, ∃ s, r.path = q ++ s) :
    ∀ r ∈ (visitFields p fs gs).2, ∃ s, r.path = p ++ s := by
  induction fs generalizing gs with
  | nil => intro r hr; simp [visitFields] at hr
  | cons e fs ihf =>
    obtain ⟨n, v⟩ := e
    cases gs with
    | nil => intro r hr; simp [visitFields] at hr
    | cons e' gs =>
      obtain ⟨m, w⟩ := e'
      intro r hr
      simp only [visitFields, List.mem_append] at hr
      rcases hr with hr | hr
      · obtain ⟨s, hs⟩ := ih n v (List.mem_cons_self _ _) w _ r hr
        exact ⟨"." ++ (n ++ s), by simp [hs, String.append_assoc]⟩
      · exact ihf gs (fun n v h => ih n v (List.mem_cons_of_mem _ h)) r hr

theorem visitSeq_path_extends (p : String) (xs ys : List Value)
    (ih : ∀ v ∈ xs, ∀ w q, ∀ r ∈ (visit q v w).2, ∃ s, r.path = q ++ s) :
    ∀ i, ∀ r ∈ (visitSeq p i xs ys).2, ∃ s, r.path = p ++ s := by
  induction xs generalizing ys with
  | nil => intro i r hr; simp [visitSeq] at hr
  | cons x xs ihl =>
    cases ys with
    | nil => intro i r hr; simp [visitSeq] at hr
    | cons y ys =>
      intro i r hr
      simp only [visitSeq, List.mem_append] at hr
      rcases hr with hr | hr
      · obtain ⟨s, hs⟩ := ih x (List.mem_cons_self _ _) y _ r hr
        exact ⟨"[" ++ (toString i ++ ("]" ++ s)), by simp [hs, String.append_assoc]⟩
      · exact ihl ys (fun v h => ih v (List.mem_cons_of_mem _ h)) (i + 1) r hr

theorem visitMapL_path_extends (l rv : Value) (p : String)
    (fs es : List (Value × Value))
    (ih : ∀ k v, (k, v) ∈ es → ∀ w q, ∀ r ∈ (visit q v w).2, ∃ s, r.path = q ++ s) :
    ∀ r ∈ (visitMapL l rv p fs es).2, ∃ s, r.path = p ++ s := by
  induction es with
  | nil => intro r hr; simp [visitMapL] at hr
  | cons e es ihe =>
    obtain ⟨k, v⟩ := e
    intro r hr
    cases hlk : lookupVal k fs with
    | none =>
      rw [visitMapL] at hr
      simp only [hlk, List.mem_cons] at hr
      rcases hr with rfl | hr
      · exact ⟨"", by simp⟩
      · exact ihe (fun k v h => ih k v (List.mem_cons_of_mem _ h)) r hr
    | some w =>
      rw [visitMapL] at hr
      simp only [hlk, List.mem_append] at hr
      rcases hr with hr | hr
      · obtain ⟨s, hs⟩ := ih k v (List.mem_cons_self _ _) w _ r hr
        exact ⟨"[" ++ (render k ++ ("]" ++ s)), by simp [hs, String.append_assoc]⟩
      · exact ihe (fun k v h => ih k v (List.mem_cons_of_mem _ h)) r hr

/-- Every report's path extends the path the traversal was entered with. -/
theorem visit_path_extends (a : Value) :
    ∀ b p, ∀ r ∈ (visit p a b).2, ∃ s, r.path = p ++ s := by
  induction a using value_induction with
  | hscalar n =>
    intro b p r hr
    cases b with
    | scalar m =>
      by_cases h : n = m
      · simp [visit, h] at hr
      · simp only [visit, if_neg h, List.mem_singleton] at hr
        exact ⟨"", by simp [hr]⟩
    | record gs => exact ⟨"", by simp [visit] at hr; simp [hr]⟩
    | union m w => exact ⟨"", by simp [visit] at hr; simp [hr]⟩
    | seq ys => exact ⟨"", by simp [visit] at hr; simp [hr]⟩
    | sset ys => exact ⟨"", by simp [visit] at hr; simp [hr]⟩
    | vmap gs => exact ⟨"", by simp [visit] at hr; simp [hr]⟩
  | hrecord fs ih =>
    intro b p r hr
    cases b with
    | record gs =>
      simp only [visit] at hr
      exact visitFields_path_extends p fs gs ih r hr
    | scalar m => exact ⟨"", by simp [visit] at hr; simp [hr]⟩
    | union m w => exact ⟨"", by simp [visit] at hr; simp [hr]⟩
    | seq ys => exact ⟨"", by simp [visit] at hr; simp [hr]⟩
    | sset ys => exact ⟨"", by simp [visit] at hr; simp [hr]⟩
    | vmap gs => exact ⟨"", by simp [visit] at hr; simp [hr]⟩
  | hunion n v ih =>
    intro b p r hr
    cases b with
    | union m w =>
      by_cases h : n = m
      · simp only [visit, if_pos h] at hr
        obtain ⟨s, hs⟩ := ih w _ r hr
        exact ⟨"." ++ (n ++ s), by simp [hs, String.append_assoc]⟩
      · simp only [visit, if_neg h, List.mem_singleton] at hr
        exact ⟨"", by simp [hr]⟩
    | scalar m => exact ⟨"", by simp [visit] at hr; simp [hr]⟩
    | record gs => exact ⟨"", by simp [visit] at hr; simp [hr]⟩
    | seq ys => exact ⟨"", by simp [visit] at hr; simp [hr]⟩
    | sset ys => exact ⟨"", by simp [visit] at hr; simp [hr]⟩
    | vmap gs => exact ⟨"", by simp [visit] at hr; simp [hr]⟩
  | hseq xs ih =>
    intro b p r hr
    cases b with
    | seq ys =>
      by_cases h : xs.length = ys.length
      · simp only [visit, if_pos h] at hr
        exact visitSeq_path_extends p xs ys ih 0 r hr
      · simp only [visit, if_neg h, List.mem_singleton] at hr
        exact ⟨"", by simp [hr]⟩
    | scalar m => exact ⟨"", by simp [visit] at hr; simp [hr]⟩
    | record gs => exact ⟨"", by simp [visit] at hr; simp [hr]⟩
    | union m w => exact ⟨"", by simp [visit] at hr; simp [hr]⟩
    | sset ys => exact ⟨"", by simp [visit] at hr; simp [hr]⟩
    | vmap gs => exact ⟨"", by simp [visit] at hr; simp [hr]⟩
  | hsset xs ih =>
    intro b p r hr
    cases b with
    | sset ys =>
      simp only [visit, List.mem_append, List.mem_map] at hr
      rcases hr with ⟨x, hx', rfl⟩ | ⟨y, hy', rfl⟩ <;> exact ⟨"", by simp⟩
    | scalar m => exact ⟨"", by simp [visit] at hr; simp [hr]⟩
    | record gs => exact ⟨"", by simp [visit] at hr; simp [hr]⟩
    | union m w => exact ⟨"", by simp [visit] at hr; simp [hr]⟩
    | seq ys => exact ⟨"", by simp [visit] at hr; simp [hr]⟩
    | vmap gs => exact ⟨"", by simp [visit] at hr; simp [hr]⟩
  | hvmap es ih =>
    intro b p r hr
    cases b with
    | vmap fs =>
      simp only [visit, List.mem_append, List.mem_map] at hr
      rcases hr with hr | ⟨e, he, rfl⟩
      · exact visitMapL_path_extends _ _ p fs es (fun k v h => (ih k v h).2) r hr
      · exact ⟨"", by simp⟩
    | scalar m => exact ⟨"", by simp [visit] at hr; simp [hr]⟩
    | record gs => exact ⟨"", by simp [visit] at hr; simp [hr]⟩
    | union m w => exact ⟨"", by simp [visit] at hr; simp [hr]⟩
    | seq ys => exact ⟨"", by simp [visit] at hr; simp [hr]⟩
    | sset ys => exact ⟨"", by simp [visit] at hr; simp [hr]⟩

/-- C10: every comparison starts from the fixed root marker: every mismatch
reported by `debug_equals` has a path beginning with `"<root>"`, and a
mismatch at the top-level value itself (here: a top-level scalar inequality)
is reported at exactly the path `"<root>"`. -/
theorem c10_root_path (lhs rhs : Value) :
    (∀ r ∈ (debug_equals lhs rhs).2, ∃ s, r.path = "<root>" ++ s) ∧
    (∀ n m : Nat, n ≠ m →
      (debug_equals (.scalar n) (.scalar m)).2
        = [⟨.scalar n, .scalar m, "<root>", "values are not equal"⟩]) := by
  constructor
  · exact visit_path_extends lhs rhs "<root>"
  · intro n m h
    simp [debug_equals, visit, h]

/-- Witness for C10 at top-level scalars `1` and `2`. -/
theorem c10_root_path_witness :
    (1 : Nat) ≠ 2 ∧
    (debug_equals (.scalar 1) (.scalar 2)).2
      = [⟨.scalar 1, .scalar 2, "<root>", "values are not equal"⟩] :=
  ⟨by decide, (c10_root_path (.scalar 1) (.scalar 2)).2 1 2 (by decide)⟩

theorem exists_mem_append {l1 l2 : List Report} {q : String} :
    (∃ r ∈ l1 ++ l2, r.path = q)
      ↔ (∃ r ∈ l1, r.path = q) ∨ (∃ r ∈ l2, r.path = q) := by
  simp only [List.mem_append]
  constructor
  · rintro ⟨r, h1 | h1, h2⟩
    · exact Or.inl ⟨r, h1, h2⟩
    · exact Or.inr ⟨r, h1, h2⟩
  · rintro (⟨r, h1, h2⟩ | ⟨r, h1, h2⟩)
    · exact ⟨r, Or.inl h1, h2⟩
    · exact ⟨r, Or.inr h1, h2⟩

theorem visitFields_symm (p q : String) (fs : List (String × Value)) :
    ∀ (gs : List (String × Value)) (ts : List (String × Ty)),
      fieldsHaveTypes fs ts = true → fieldsHaveTypes gs ts = true →
      (∀ n v, (n, v) ∈ fs → ∀ w t, hasType v t = true → hasType w t = true →
        ∀ p' q', ((∃ r ∈ (visit p' v w).2, r.path = q')
          ↔ (∃ r ∈ (visit p' w v).2, r.path = q'))) →
      ((∃ r ∈ (visitFields p fs gs).2, r.path = q)
        ↔ (∃ r ∈ (visitFields p gs fs).2, r.path = q)) := by
  induction fs with
  | nil =>
    intro gs ts hfs hgs ih
    cases ts with
    | nil =>
      cases gs with
      | nil => simp
      | cons e gs => simp [fieldsHaveTypes] at hgs
    | cons et ts => simp [fieldsHaveTypes] at hfs
  | cons e fs ihf =>
    obtain ⟨n, v⟩ := e
    intro gs ts hfs hgs ih
    cases ts with
    | nil => simp [fieldsHaveTypes] at hfs
    | cons et ts =>
      obtain ⟨m, t⟩ := et
      cases gs with
      | nil => simp [fieldsHaveTypes] at hgs
      | cons e' gs =>
        obtain ⟨n', w⟩ := e'
        simp only [fieldsHaveTypes, Bool.and_eq_true, beq_iff_eq] at hfs hgs
        obtain ⟨⟨hnm, hvt⟩, hfs'⟩ := hfs
        obtain ⟨⟨hn'm, hwt⟩, hgs'⟩ := hgs
        have hym : n' = n := hn'm.trans hnm.symm
        rw [hym]
        simp only [visitFields]
        rw [exists_mem_append, exists_mem_append]
        exact or_congr
          (ih n v (List.mem_cons_self _ _) w t hvt hwt _ q)
          (ihf gs ts hfs' hgs'
            (fun n v h => ih n v (List.mem_cons_of_mem _ h)))

theorem visitSeq_symm (p q : String) (t : Ty) (xs : List Value) :
    ∀ (ys : List Value),
      listHasType xs t = true → listHasType ys t = true →
      (∀ v ∈ xs, ∀ w t', hasType v t' = true → hasType w t' = true →
        ∀ p' q', ((∃ r ∈ (visit p' v w).2, r.path = q')
          ↔ (∃ r ∈ (visit p' w v).2, r.path = q'))) →
      ∀ i, ((∃ r ∈ (visitSeq p i xs ys).2, r.path = q)
        ↔ (∃ r ∈ (visitSeq p i ys xs).2, r.path = q)) := by
  induction xs with
  | nil =>
    intro ys _ _ _ i
    cases ys <;> simp [visitSeq]
  | cons x xs ihl =>
    intro ys hxs hys ih i
    cases ys with
    | nil => simp [visitSeq]
    | cons y ys =>
      simp only [listHasType, Bool.and_eq_true] at hxs hys
      simp only [visitSeq]
      rw [exists_mem_append, exists_mem_append]
      exact or_congr
        (ih x (List.mem_cons_self _ _) y t hxs.1 hys.1 _ q)
        (ihl ys hxs.2 hys.2
          (fun v h => ih v (List.mem_cons_of_mem _ h)) (i + 1))

theorem visitMapL_exists_path (l rv : Value) (p q : String)
    (fs : List (Value × Value)) :
    ∀ es : List (Value × Value),
      ((∃ r ∈ (visitMapL l rv p fs es).2, r.path = q)
        ↔ ((∃ e ∈ es, lookupVal e.1 fs = none) ∧ q = p)
          ∨ (∃ e ∈ es, ∃ w, lookupVal e.1 fs = some w
              ∧ ∃ r ∈ (visit (p ++ "[" ++ render e.1 ++ "]") e.2 w).2,
                  r.path = q)) := by
  intro es
  induction es with
  | nil => simp [visitMapL]
  | cons e es ihe =>
    obtain ⟨k, v⟩ := e
    cases hlk : lookupVal k fs with
    | none =>
      simp only [visitMapL, hlk, List.mem_cons, List.mem_singleton]
      constructor
      · rintro ⟨r, rfl | hr, hq⟩
        · exact Or.inl ⟨⟨(k, v), Or.inl rfl, hlk⟩, hq.symm⟩
        · rcases (ihe).mp ⟨r, hr, hq⟩ with ⟨⟨e', he', hn⟩, rfl⟩ | ⟨e', he', w, hw, hr'⟩
          · exact Or.inl ⟨⟨e', Or.inr he', hn⟩, rfl⟩
          · exact Or.inr ⟨e', Or.inr he', w, hw, hr'⟩
      · rintro (⟨⟨e', he, hn⟩, rfl⟩ | ⟨e', he, w, hw, hr'⟩)
        · exact ⟨_, Or.inl rfl, rfl⟩
        · rcases he with rfl | he
          · rw [hlk] at hw
            cases hw
          · obtain ⟨r, hr, hq⟩ := ihe.mpr (Or.inr ⟨e', he, w, hw, hr'⟩)
            exact ⟨r, Or.inr hr, hq⟩
    | some w =>
      simp only [visitMapL, hlk, List.mem_cons]
      rw [exists_mem_append]
      constructor
      · rintro (⟨r, hr, hq⟩ | hrest)
        · exact Or.inr ⟨(k, v), Or.inl rfl, w, hlk, r, hr, hq⟩
        · rcases ihe.mp hrest with ⟨⟨e', he', hn⟩, rfl⟩ | ⟨e', he', w', hw', hr'⟩
          · exact Or.inl ⟨⟨e', Or.inr he', hn⟩, rfl⟩
          · exact Or.inr ⟨e', Or.inr he', w', hw', hr'⟩
      · rintro (⟨⟨e', he, hn⟩, rfl⟩ | ⟨e', he, w', hw', hr'⟩)
        · rcases he with rfl | he
          · rw [hlk] at hn
            cases hn
          · exact Or.inr (ihe.mpr (Or.inl ⟨⟨e', he, hn⟩, rfl⟩))
        · rcases he with rfl | he
          · rw [hlk] at hw'
            cases hw'
            exact Or.inl hr'
          · exact Or.inr (ihe.mpr (Or.inr ⟨e', he, w', hw', hr'⟩))

theorem map_recursion_symm (p q : String) (kt vt : Ty)
    (es fs : List (Value × Value))
    (hes : entriesHaveTypes es kt vt = true)
    (hfs : entriesHaveTypes fs kt vt = true)
    (hndes : (es.map Prod.fst).Nodup) (hndfs : (fs.map Prod.fst).Nodup)
    (ih : ∀ k v, (k, v) ∈ es → ∀ w t', hasType v t' = true → hasType w t' = true →
      ∀ p' q', ((∃ r ∈ (visit p' v w).2, r.path = q')
        ↔ (∃ r ∈ (visit p' w v).2, r.path = q'))) :
    ((∃ e ∈ es, ∃ w, lookupVal e.1 fs = some w
        ∧ ∃ r ∈ (visit (p ++ "[" ++ render e.1 ++ "]") e.2 w).2, r.path = q)
      ↔ (∃ e ∈ fs, ∃ v, lookupVal e.1 es = some v
        ∧ ∃ r ∈ (visit (p ++ "[" ++ render e.1 ++ "]") e.2 v).2, r.path = q)) := by
  constructor
  · rintro ⟨⟨k, v⟩, he, w, hlk, hr⟩
    have hwfs : (k, w) ∈ fs := lookupVal_mem hlk
    refine ⟨(k, w), hwfs, v, lookupVal_of_mem_nodup hndes he, ?_⟩
    exact (ih k v he w vt (entriesHaveTypes_mem hes he).2
      (entriesHaveTypes_mem hfs hwfs).2 _ q).mp hr
  · rintro ⟨⟨k, w⟩, he, v, hlk, hr⟩
    have hves : (k, v) ∈ es := lookupVal_mem hlk
    refine ⟨(k, v), hves, w, lookupVal_of_mem_nodup hndfs he, ?_⟩
    exact (ih k v hves w vt (entriesHaveTypes_mem hes hves).2
      (entriesHaveTypes_mem hfs he).2 _ q).mpr hr

theorem exists_mem_missing_map (l rv : Value) (p q : String)
    (fs es : List (Value × Value)) :
    (∃ rp ∈ (fs.filter (fun e => (lookupVal e.1 es).isNone)).map
        (fun e => (⟨l, rv, p, "key " ++ render e.1 ++ " missing in lhs"⟩ : Report)),
      rp.path = q)
      ↔ ((∃ e ∈ fs, lookupVal e.1 es = none) ∧ q = p) := by
  simp only [List.mem_map, List.mem_filter, Option.isNone_iff_eq_none]
  constructor
  · rintro ⟨rp, ⟨e, ⟨he, hn⟩, rfl⟩, hq⟩
    exact ⟨⟨e, he, hn⟩, hq.symm⟩
  · rintro ⟨⟨e, he, hn⟩, rfl⟩
    exact ⟨_, ⟨e, ⟨he, hn⟩, rfl⟩, rfl⟩

/-- Symmetry of detection for the traversal: for same-typed inputs, a report
exists at a path in one direction iff one exists at the same path in the
other direction. -/
theorem visit_symm (a : Value) :
    ∀ b t, hasType a t = true → hasType b t = true → ∀ p q,
      ((∃ r ∈ (visit p a b).2, r.path = q)
        ↔ (∃ r ∈ (visit p b a).2, r.path = q)) := by
  induction a using value_induction with
  | hscalar n =>
    intro b t ha hb p q
    cases t <;> simp only [hasType] at ha <;> try exact Bool.noConfusion ha
    cases b <;> simp only [hasType] at hb <;> try exact Bool.noConfusion hb
    case scalar m =>
      by_cases h : n = m
      · subst h
        simp [visit]
      · have h' : ¬ m = n := fun hh => h hh.symm
        simp [visit, h, h']
  | hrecord fs ih =>
    intro b t ha hb p q
    cases t <;> simp only [hasType] at ha <;> try exact Bool.noConfusion ha
    case record ts =>
    cases b <;> simp only [hasType] at hb <;> try exact Bool.noConfusion hb
    case record gs =>
      simp only [visit]
      exact visitFields_symm p q fs gs ts ha hb ih
  | hunion n v ih =>
    intro b t ha hb p q
    cases t <;> simp only [hasType] at ha <;> try exact Bool.noConfusion ha
    case union vars =>
    cases b <;> simp only [hasType] at hb <;> try exact Bool.noConfusion hb
    case union m w =>
      cases hl1 : lookupTy n vars with
      | none => rw [hl1] at ha; exact Bool.noConfusion ha
      | some tv =>
        rw [hl1] at ha
        by_cases h : n = m
        · subst h
          cases hl2 : lookupTy n vars with
          | none => rw [hl2] at hb; exact Bool.noConfusion hb
          | some tw =>
            rw [hl2] at hb
            rw [hl1] at hl2
            cases hl2
            simp only [visit, if_pos rfl]
            exact ih w tv ha hb (p ++ "." ++ n) q
        · have h' : ¬ m = n := fun hh => h hh.symm
          simp [visit, h, h']
  | hseq xs ih =>
    intro b t ha hb p q
    cases t <;> simp only [hasType] at ha <;> try exact Bool.noConfusion ha
    case seq t' =>
    cases b <;> simp only [hasType] at hb <;> try exact Bool.noConfusion hb
    case seq ys =>
      by_cases h : xs.length = ys.length
      · simp only [visit, if_pos h, if_pos h.symm]
        exact visitSeq_symm p q t' xs ys ha hb ih 0
      · have h' : ¬ ys.length = xs.length := fun hh => h hh.symm
        simp [visit, h, h']
  | hsset xs ih =>
    intro b t ha hb p q
    cases t <;> simp only [hasType] at ha <;> try exact Bool.noConfusion ha
    case sset t' =>
    cases b <;> simp only [hasType] at hb <;> try exact Bool.noConfusion hb
    case sset ys =>
      simp only [visit, List.mem_append, List.mem_map]
      constructor
      · rintro ⟨r, hmem, hq⟩
        rcases hmem with ⟨x, hx', rfl⟩ | ⟨y, hy', rfl⟩
        · exact ⟨⟨.sset ys, .sset xs, p,
            "element " ++ render x ++ " missing in lhs"⟩,
            Or.inr ⟨x, hx', rfl⟩, hq⟩
        · exact ⟨⟨.sset ys, .sset xs, p,
            "element " ++ render y ++ " missing in rhs"⟩,
            Or.inl ⟨y, hy', rfl⟩, hq⟩
      · rintro ⟨r, hmem, hq⟩
        rcases hmem with ⟨y, hy', rfl⟩ | ⟨x, hx', rfl⟩
        · exact ⟨⟨.sset xs, .sset ys, p,
            "element " ++ render y ++ " missing in lhs"⟩,
            Or.inr ⟨y, hy', rfl⟩, hq⟩
        · exact ⟨⟨.sset xs, .sset ys, p,
            "element " ++ render x ++ " missing in rhs"⟩,
            Or.inl ⟨x, hx', rfl⟩, hq⟩
  | hvmap es ih =>
    intro b t ha hb p q
    cases t <;> simp only [hasType] at ha <;> try exact Bool.noConfusion ha
    case vmap kt vt =>
    cases b <;> simp only [hasType] at hb <;> try exact Bool.noConfusion hb
    case vmap fs =>
      rw [Bool.and_eq_true] at ha hb
      have hndes : (es.map Prod.fst).Nodup := (distinctB_iff _).mp ha.2
      have hndfs : (fs.map Prod.fst).Nodup := (distinctB_iff _).mp hb.2
      simp only [visit]
      rw [exists_mem_append, exists_mem_append,
        visitMapL_exists_path _ _ p q fs es,
        visitMapL_exists_path _ _ p q es fs,
        exists_mem_missing_map, exists_mem_missing_map]
      have hrec := map_recursion_symm p q kt vt es fs ha.1 hb.1 hndes hndfs
        (fun k v h => (ih k v h).2)
      rw [hrec]
      constructor
      · rintro ((h | h) | h)
        · exact Or.inr h
        · exact Or.inl (Or.inr h)
        · exact Or.inl (Or.inl h)
      · rintro ((h | h) | h)
        · exact Or.inr h
        · exact Or.inl (Or.inr h)
        · exact Or.inl (Or.inl h)

/-- C8: symmetry of detection (not of message content): for same-typed
inputs `a`, `b`, `debug_equals a b` reports a mismatch at a path `q` iff
`debug_equals b a` reports a mismatch at the same path `q` (with the lhs/rhs
payload sides swapped in the reports themselves). -/
theorem c8_symmetry_of_detection (a b : Value) (t : Ty)
    (ha : hasType a t = true) (hb : hasType b t = true) (q : String) :
    ((∃ r ∈ (debug_equals a b).2, r.path = q)
      ↔ (∃ r ∈ (debug_equals b a).2, r.path = q)) :=
  visit_symm a b t ha hb "<root>" q

/-- Witness for C8 at scalars `1`, `2` and path `"<root>"`. -/
theorem c8_symmetry_of_detection_witness :
    hasType (Value.scalar 1) Ty.scalar = true ∧
    hasType (Value.scalar 2) Ty.scalar = true ∧
    ((∃ r ∈ (debug_equals (.scalar 1) (.scalar 2)).2, r.path = "<root>")
      ↔ (∃ r ∈ (debug_equals (.scalar 2) (.scalar 1)).2, r.path = "<root>")) := by
  have h1 : hasType (Value.scalar 1) Ty.scalar = true := by simp [hasType]
  have h2 : hasType (Value.scalar 2) Ty.scalar = true := by simp [hasType]
  exact ⟨h1, h2,
    c8_symmetry_of_detection (.scalar 1) (.scalar 2) .scalar h1 h2 "<root>"⟩
